import Mathlib

/-!
# Verification of the flask-stormpath layered settings store and glue code

This file gives a shallow embedding of the `StormpathSettings` dual-view
configuration store, its name-translation algorithm, the settings validator,
the identity-bridge adapter (`User`, `load_user`) and the route-registration
logic of the flask-stormpath repository, together with proofs of the spec's
claimed properties.

The store itself (`flask_stormpath/settings.py`) is exercised by the test
suite but its implementation is not part of the provided sources; the
definitions concerning it are modelled from the specification's description
of the data model, the name-translation rules, and the read/write/delete
resolution algorithm, keeping the names used by the tests.
-/

namespace Stormpath

/-! ## Name translation: characters, splitting and joining on underscores -/

/-- ASCII letters and digits, the character set of valid path-segment names. -/
def validChar (c : Char) : Bool :=
  (48 ≤ c.toNat && c.toNat ≤ 57) || (65 ≤ c.toNat && c.toNat ≤ 90) ||
    (97 ≤ c.toNat && c.toNat ≤ 122)

/-- A valid path-segment name: ASCII letters and digits only, no leading digit. -/
def validName (s : String) : Bool :=
  s.data.all validChar &&
    (match s.data with
     | [] => true
     | c :: _ => !c.isDigit)

/-- Split a character list on every underscore (Python `str.split('_')`
semantics, so it always returns at least one, possibly empty, token). -/
def splitUnders : List Char → List (List Char)
  | [] => [[]]
  | c :: cs =>
      if c = '_' then [] :: splitUnders cs
      else
        match splitUnders cs with
        | [] => [[c]]
        | t :: ts => (c :: t) :: ts

/-- Join tokens with single underscores (Python `'_'.join`). -/
def joinUnders : List (List Char) → List Char
  | [] => []
  | [t] => t
  | t :: ts => t ++ '_' :: joinUnders ts

/-- Modelled from the spec: the lower-camelCase to UPPER_SNAKE transform of
`StormpathSettings._from_camel`: insert `_` before each uppercase letter, then
uppercase the whole string. -/
def snakeChars : List Char → List Char
  | [] => []
  | c :: cs =>
      if c.isUpper then '_' :: c.toUpper :: snakeChars cs
      else c.toUpper :: snakeChars cs

/-- String form of `snakeChars` (the source's `_from_camel`). -/
def fromCamel (s : String) : String :=
  ⟨snakeChars s.data⟩

/-- Titlecase a token: uppercase the first character, lowercase the rest. -/
def titleToken : List Char → List Char
  | [] => []
  | c :: cs => c.toUpper :: cs.map Char.toLower

/-- Modelled from the spec: the UPPER_SNAKE to lower-camelCase transform
(the source's `_to_camel`): split on underscores, lowercase the first token,
titlecase and concatenate the remaining tokens. -/
def camelChars (cs : List Char) : List Char :=
  match splitUnders cs with
  | [] => []
  | t :: ts => t.map Char.toLower ++ (ts.map titleToken).flatten

/-- String form of `camelChars` (the source's `_to_camel`). -/
def toCamel (s : String) : String :=
  ⟨camelChars s.data⟩

/-! ## The settings tree -/

/-- A node of the settings tree: a string leaf, a boolean leaf, or a nested
mapping given as an ordered association list (modelling a Python dict). -/
inductive SNode where
  | str : String → SNode
  | flag : Bool → SNode
  | node : List (String × SNode) → SNode

mutual

/-- Boolean equality of settings trees. -/
def SNode.beq : SNode → SNode → Bool
  | .str a, .str b => a == b
  | .flag a, .flag b => a == b
  | .node m, .node n => SNode.beqList m n
  | _, _ => false

/-- Boolean equality of settings mappings. -/
def SNode.beqList : List (String × SNode) → List (String × SNode) → Bool
  | [], [] => true
  | e :: m, f :: n => e.1 == f.1 && SNode.beq e.2 f.2 && SNode.beqList m n
  | _, _ => false

end

mutual

theorem SNode.beq_iff : ∀ a b : SNode, SNode.beq a b = true ↔ a = b
  | .str a, .str b => by simp [SNode.beq]
  | .str _, .flag _ => by simp [SNode.beq]
  | .str _, .node _ => by simp [SNode.beq]
  | .flag _, .str _ => by simp [SNode.beq]
  | .flag a, .flag b => by simp [SNode.beq]
  | .flag _, .node _ => by simp [SNode.beq]
  | .node _, .str _ => by simp [SNode.beq]
  | .node _, .flag _ => by simp [SNode.beq]
  | .node m, .node n => by
      simp [SNode.beq, SNode.beqList_iff m n]

theorem SNode.beqList_iff :
    ∀ m n : List (String × SNode), SNode.beqList m n = true ↔ m = n
  | [], [] => by simp [SNode.beqList]
  | [], _ :: _ => by simp [SNode.beqList]
  | _ :: _, [] => by simp [SNode.beqList]
  | e :: m, f :: n => by
      simp [SNode.beqList, SNode.beq_iff e.2 f.2, SNode.beqList_iff m n,
        Prod.ext_iff, and_assoc]

end

instance : DecidableEq SNode := fun a b => decidable_of_iff _ (SNode.beq_iff a b)

/-- First-occurrence lookup in an association list (Python dict lookup). -/
def assocLookup : List (String × SNode) → String → Option SNode
  | [], _ => none
  | (k', v') :: m, k => if k' = k then some v' else assocLookup m k

/-- Replace the value at the first occurrence of a key, or append a new
binding (Python dict assignment). -/
def assocSet : List (String × SNode) → String → SNode → List (String × SNode)
  | [], k, v => [(k, v)]
  | (k', v') :: m, k, v =>
      if k' = k then (k, v) :: m else (k', v') :: assocSet m k v

/-- Remove the first occurrence of a key (Python `del d[k]`). -/
def assocErase : List (String × SNode) → String → List (String × SNode)
  | [], _ => []
  | (k', v') :: m, k => if k' = k then m else (k', v') :: assocErase m k

/-- Whether an association list binds a key. -/
def containsKey (m : List (String × SNode)) (k : String) : Bool :=
  (assocLookup m k).isSome

/-- Read the value at a nested path (the "path address" reading mode). -/
def lookupPath : SNode → List String → Option SNode
  | v, [] => some v
  | SNode.node m, k :: ps =>
      match assocLookup m k with
      | some v => lookupPath v ps
      | none => none
  | _, _ :: _ => none

/-- Overwrite the slot at a nested path.  The final key is assigned dict-style
(created if absent); intermediate segments must already exist. -/
def setPath : SNode → List String → SNode → Option SNode
  | _, [], v => some v
  | SNode.node m, [k], v => some (SNode.node (assocSet m k v))
  | SNode.node m, k :: p :: ps, v =>
      match assocLookup m k with
      | some child =>
          (setPath child (p :: ps) v).map (fun c => SNode.node (assocSet m k c))
      | none => none
  | _, _ :: _, _ => none

/-- Delete the slot at a nested path (`del`); fails if the path is absent. -/
def delPath : SNode → List String → Option SNode
  | _, [] => none
  | SNode.node m, [k] =>
      if containsKey m k then some (SNode.node (assocErase m k)) else none
  | SNode.node m, k :: p :: ps =>
      match assocLookup m k with
      | some child =>
          (delPath child (p :: ps)).map (fun c => SNode.node (assocSet m k c))
      | none => none
  | _, _ :: _ => none

mutual

/-- All nonempty paths addressing a node of the tree. -/
def pathsOf : SNode → List (List String)
  | .str _ => []
  | .flag _ => []
  | .node m => pathsOfList m

/-- All nonempty paths of the subtrees of a mapping. -/
def pathsOfList : List (String × SNode) → List (List String)
  | [] => []
  | (k, c) :: m => ([k] :: (pathsOf c).map (fun P => k :: P)) ++ pathsOfList m

end

/-! ## Flattened aliases and key resolution -/

/-- The token list of one path segment's snake form. -/
def segTok (k : String) : List (List Char) :=
  splitUnders (snakeChars k.data)

/-- The token decomposition of a whole path's flattened alias (without the
namespace token). -/
def pathToks (P : List String) : List (List Char) :=
  P.flatMap segTok

/-- The character list of a path's flattened alias: the namespace token
followed by `_` plus the snake form of every segment. -/
def aliasChars (P : List String) : List Char :=
  "STORMPATH".data ++ P.flatMap (fun p => '_' :: snakeChars p.data)

/-- The flattened upper-snake-case alias of a nested path. -/
def aliasOf (P : List String) : String :=
  ⟨aliasChars P⟩

/-- All ways to split a token list into a nonempty leading run and the
remaining tokens, longest run first. -/
def splitsDesc (ts : List (List Char)) :
    List (List (List Char) × List (List Char)) :=
  (List.range ts.length).map
    (fun i => (ts.take (ts.length - i), ts.drop (ts.length - i)))

/-- Modelled from the spec: the recursive decomposition search of the store
(`StormpathSettings.__search__`), written with an explicit recursion budget.
Given the token list of a flattened key (namespace already stripped), it
matches the longest possible run of consecutive tokens against the snake form
of a child's name and descends recursively; the result is the nested path the
key resolves to.  Each step consumes at least one token, so a budget equal to
the number of tokens always suffices (see `resolveTokens`). -/
def resolveAux : Nat → SNode → List (List Char) → Option (List String)
  | 0, _, _ => none
  | _ + 1, SNode.str _, _ => none
  | _ + 1, SNode.flag _, _ => none
  | n + 1, SNode.node m, ts =>
      (splitsDesc ts).findSome? (fun p =>
        m.findSome? (fun e =>
          if joinUnders p.1 = snakeChars e.1.data then
            if p.2 = [] then some [e.1]
            else (resolveAux n e.2 p.2).map (fun P => e.1 :: P)
          else none))

/-- Resolve a stripped flattened key's token list to the nested path it
addresses. -/
def resolveTokens (t : SNode) (ts : List (List Char)) : Option (List String) :=
  resolveAux ts.length t ts

/-! ## The settings store -/

/-- Modelled from the spec: the layered settings store.  `store` is the root
nested mapping; `mappings` is the explicit alias-to-path table used for
backwards-compatible flattened keys (an entry sends a flattened key to the
flattened key of the path it stands for). -/
structure StormpathSettings where
  store : List (String × SNode)
  mappings : List (String × String)
deriving DecidableEq

/-- First-occurrence lookup in the alias table. -/
def mapLookup : List (String × String) → String → Option String
  | [], _ => none
  | (k', v') :: m, k => if k' = k then some v' else mapLookup m k

/-- Strip the leading namespace token of a flattened key, if present. -/
def stripTokens : List (List Char) → List (List Char)
  | t :: rest => if t = "STORMPATH".data then rest else t :: rest
  | [] => []

/-- Modelled from the spec: decompose a flattened key against the store:
split on underscores, strip the namespace token if present, and search the
tree for the longest-run camel-case reconstruction of the tokens. -/
def decomposeKey (store : List (String × SNode)) (key : String) :
    Option (List String) :=
  resolveTokens (SNode.node store) (stripTokens (splitUnders key.data))

/-- Modelled from the spec: resolve a key to the nested path it addresses
(`StormpathSettings.__nodematch__`): an exact root segment match is used
directly; otherwise an explicit alias-table entry for the full key is used in
preference to camel-case decomposition of the key itself. -/
def resolveKey (s : StormpathSettings) (key : String) : Option (List String) :=
  if containsKey s.store key then some [key]
  else decomposeKey s.store ((mapLookup s.mappings key).getD key)

/-- Indexed read (`__getitem__`): resolve the key, then read the path;
`none` models the `KeyError`. -/
def getItem (s : StormpathSettings) (key : String) : Option SNode :=
  (resolveKey s key).bind (lookupPath (SNode.node s.store))

/-- Indexed write (`__setitem__`): resolve the key exactly as reads do, then
overwrite that slot; `none` models the unknown-setting `KeyError`. -/
def setItem (s : StormpathSettings) (key : String) (v : SNode) :
    Option StormpathSettings :=
  (resolveKey s key).bind (fun P =>
    (setPath (SNode.node s.store) P v).bind (fun t =>
      match t with
      | SNode.node m => some ⟨m, s.mappings⟩
      | _ => none))

/-- Path-mode write: mutate the nested structure directly (Python
`settings['web']['setting'] = v` on the inner dicts). -/
def setViaPath (s : StormpathSettings) (P : List String) (v : SNode) :
    Option StormpathSettings :=
  (setPath (SNode.node s.store) P v).bind (fun t =>
    match t with
    | SNode.node m => some ⟨m, s.mappings⟩
    | _ => none)

/-- Path-mode delete (`del settings['web']['register']`). -/
def delViaPath (s : StormpathSettings) (P : List String) :
    Option StormpathSettings :=
  (delPath (SNode.node s.store) P).bind (fun t =>
    match t with
    | SNode.node m => some ⟨m, s.mappings⟩
    | _ => none)

/-! ## Well-formedness predicates -/

mutual

/-- Every mapping in the tree has duplicate-free keys: the invariant every
store built from Python dicts satisfies. -/
def dictLike : SNode → Bool
  | .str _ => true
  | .flag _ => true
  | .node m => dictLikeList m

/-- `dictLike` for a mapping: no key occurs twice and all subtrees are
`dictLike`. -/
def dictLikeList : List (String × SNode) → Bool
  | [] => true
  | (k, c) :: m =>
      !(containsKey m k) && dictLike c && dictLikeList m

end

mutual

/-- Every key name in the tree is underscore-free (true of camelCase segment
names). -/
def underFree : SNode → Bool
  | .str _ => true
  | .flag _ => true
  | .node m => underFreeList m

/-- `underFree` for a mapping. -/
def underFreeList : List (String × SNode) → Bool
  | [] => true
  | (k, c) :: m => !k.data.contains '_' && underFree c && underFreeList m

end

/-- No two distinct paths of the tree flatten to the same alias. -/
def aliasSep (t : SNode) : Prop :=
  ((pathsOf t).map pathToks).Nodup

instance (t : SNode) : Decidable (aliasSep t) :=
  inferInstanceAs (Decidable (((pathsOf t).map pathToks).Nodup))

/-! ## Concrete stores -/

/-- Modelled from the spec: the defaults bundle of the settings store
(`config/default-config.yml` merged at `init_settings` time), restricted to
the subtrees the tests and views read: client credentials, the target
application, and the per-feature web settings. -/
def defaultStore : List (String × SNode) :=
  [("client", .node [("apiKey", .node
      [("id", .str ""), ("secret", .str ""), ("file", .str "")])]),
   ("application", .node [("name", .str ""), ("href", .str "")]),
   ("web", .node
      [("register", .node
          [("enabled", .flag true), ("uri", .str "/register"),
           ("autoLogin", .flag false),
           ("form", .node [("fields", .node
              [("givenName", .node [("enabled", .flag true)])])])]),
       ("login", .node [("enabled", .flag true), ("uri", .str "/login")]),
       ("logout", .node [("enabled", .flag true), ("uri", .str "/logout")]),
       ("forgotPassword", .node
          [("enabled", .flag false), ("uri", .str "/forgot")]),
       ("changePassword", .node
          [("enabled", .flag false), ("uri", .str "/change")]),
       ("verifyEmail", .node [("enabled", .flag false)])])]

/-- Modelled from the spec: the explicit alias-to-path table
(`StormpathSettings.MAPPINGS`), kept for backwards-compatible flattened
keys. -/
def defaultMappings : List (String × String) :=
  [("STORMPATH_APPLICATION", "STORMPATH_APPLICATION_NAME"),
   ("STORMPATH_API_KEY_ID", "STORMPATH_CLIENT_API_KEY_ID"),
   ("STORMPATH_API_KEY_SECRET", "STORMPATH_CLIENT_API_KEY_SECRET"),
   ("STORMPATH_API_KEY_FILE", "STORMPATH_CLIENT_API_KEY_FILE")]

/-- The default settings store with its alias table. -/
def defaultSettings : StormpathSettings :=
  ⟨defaultStore, defaultMappings⟩

/-- The store built from the constructor subtree
`web={'register': {'enabled': True}}`, used as a concrete witness. -/
def webStore : List (String × SNode) :=
  [("web", SNode.node [("register", SNode.node [("enabled", SNode.flag true)])])]

/-- A store in which the sibling names `given.name` and `givenName` flatten
to the same alias (`STORMPATH_GIVEN_NAME`); constructible via the
constructor's keyword subtrees. -/
def ambStore : List (String × SNode) :=
  [("given", .node [("name", .str "A")]), ("givenName", .str "B")]

/-- A store in which the sibling names `web.register` and `webRegister`
flatten to the same alias (`STORMPATH_WEB_REGISTER`). -/
def ambStore2 : List (String × SNode) :=
  [("web", .node [("register", .str "E")]), ("webRegister", .str "F")]

/-- The default settings store after `settings['STORMPATH_APPLICATION'] =
'MyApp'`. -/
def appSetStore : StormpathSettings :=
  (setItem defaultSettings "STORMPATH_APPLICATION" (SNode.str "MyApp")).getD
    ⟨[], []⟩

/-! ## The settings validator -/

/-- A configuration value as the validator sees it: a text value, a plain
number, or a duration (`timedelta`). -/
inductive CVal where
  | text : String → CVal
  | num : Int → CVal
  | duration : Int → CVal
deriving DecidableEq

/-- Whether a configuration value is a text value. -/
def CVal.isText : CVal → Bool
  | .text _ => true
  | _ => false

/-- Whether a configuration value is a duration value. -/
def CVal.isDuration : CVal → Bool
  | .duration _ => true
  | _ => false

/-- Python truthiness of an optional string setting: present and nonempty. -/
def optPresent : Option String → Bool
  | some s => !(s == "")
  | none => false

/-- The resolved settings the validator reads. -/
structure AppConfig where
  apiKeyId : Option String
  apiKeySecret : Option String
  apiKeyFile : Option String
  application : Option String
  enableGoogle : Bool
  googleClientId : Option String
  googleClientSecret : Option String
  enableFacebook : Bool
  facebookAppId : Option String
  facebookAppSecret : Option String
  cookieDomain : Option CVal
  cookieDuration : Option CVal
  registerAutoLogin : Bool
  verifyEmailEnabled : Bool
deriving DecidableEq

/-- Modelled from the spec: the settings validator `check_settings` (the
module-level validator the tests call; the manager method of the same name is
present in the source only in commented-out form).  It reports the first
violated constraint as a fatal configuration error: missing credentials,
missing application, an enabled social provider with missing credentials, a
non-text cookie domain, a non-duration cookie duration, or auto-login
requested while email verification is enabled. -/
def check_settings (c : AppConfig) : Except String Unit :=
  if (!optPresent c.apiKeyId || !optPresent c.apiKeySecret)
      && !optPresent c.apiKeyFile then
    .error "You must define your Stormpath credentials."
  else if !optPresent c.application then
    .error "You must define your Stormpath application."
  else if c.enableGoogle
      && (!optPresent c.googleClientId || !optPresent c.googleClientSecret) then
    .error "You must define your Google app settings."
  else if c.enableFacebook
      && (!optPresent c.facebookAppId || !optPresent c.facebookAppSecret) then
    .error "You must define your Facebook app settings."
  else if (match c.cookieDomain with
           | some v => !v.isText
           | none => false) then
    .error "STORMPATH_COOKIE_DOMAIN must be a string."
  else if (match c.cookieDuration with
           | some v => !v.isDuration
           | none => false) then
    .error "STORMPATH_COOKIE_DURATION must be a timedelta object."
  else if c.registerAutoLogin && c.verifyEmailEnabled then
    .error "Auto login is only possible if email verification is disabled."
  else .ok ()

/-- A configuration carrying a key-file path and an application name, with
every optional feature left at its benign default. -/
def keyFileConfig : AppConfig :=
  { apiKeyId := none
    apiKeySecret := none
    apiKeyFile := some "/home/user/.stormpath/apiKey.properties"
    application := some "MyApp"
    enableGoogle := false
    googleClientId := none
    googleClientSecret := none
    enableFacebook := false
    facebookAppId := none
    facebookAppSecret := none
    cookieDomain := none
    cookieDuration := none
    registerAutoLogin := false
    verifyEmailEnabled := false }

/-- A configuration with no API credentials and no application at all. -/
def emptyConfig : AppConfig :=
  { apiKeyId := none
    apiKeySecret := none
    apiKeyFile := none
    application := none
    enableGoogle := false
    googleClientId := none
    googleClientSecret := none
    enableFacebook := false
    facebookAppId := none
    facebookAppSecret := none
    cookieDomain := none
    cookieDuration := none
    registerAutoLogin := false
    verifyEmailEnabled := false }

/-! ## The identity bridge -/

/-- The fields of a directory-service account resource used by the bridge. -/
structure Account where
  href : String
  username : String
  email : String
  status : String
deriving DecidableEq

/-- A directory-service error (`stormpath.error.Error`), carried as its
message. -/
abbrev StormpathError := String

/-- The framework principal adapter: the source re-tags a fetched account
resource with `account.__class__ = User`, so a `User` is an account viewed
through the adapter interface. -/
structure User where
  account : Account
deriving DecidableEq

/-- The `account.__class__ = User` re-tagging step. -/
def adaptUser (a : Account) : User := ⟨a⟩

/-- `User.get_id`: the unique identifier is the account's resource href. -/
def User.get_id (u : User) : String := u.account.href

/-- `User.is_active`: active exactly when the account status is ENABLED. -/
def User.is_active (u : User) : Bool := u.account.status == "ENABLED"

/-- `User.is_anonymous`: anonymous users are not supported. -/
def User.is_anonymous (_ : User) : Bool := false

/-- `User.is_authenticated`: all users are always authenticated. -/
def User.is_authenticated (_ : User) : Bool := true

/-- `User.create`: delegate account creation to the directory service
(`application.accounts.create`) and adapt the result; the source installs no
handler, so a directory-service error propagates unchanged. -/
def User.create (svc : Except StormpathError Account) :
    Except StormpathError User :=
  svc.map adaptUser

/-- `User.from_login`: delegate to `application.authenticate_account` and
adapt the resulting account; errors propagate unchanged. -/
def User.from_login (svc : Except StormpathError Account) :
    Except StormpathError User :=
  svc.map adaptUser

/-- `StormpathManager.load_user`: fetch the account behind an href and adapt
it; the source wraps the fetch in `try ... except StormpathError: return
None`, so a directory-service error becomes a `None` result. -/
def load_user (fetch : Except StormpathError Account) : Option User :=
  match fetch with
  | .ok a => some (adaptUser a)
  | .error _ => none

/-! ## Route registration -/

/-- The per-feature web settings read by `init_routes`. -/
structure FeatureConf where
  enabled : Bool
  uri : String
deriving DecidableEq

/-- The `web` subtree as `init_routes` reads it. -/
structure WebConf where
  register : FeatureConf
  login : FeatureConf
  forgotPassword : FeatureConf
  changePassword : FeatureConf
  logout : FeatureConf
deriving DecidableEq

/-- `StormpathManager.init_routes`: the `(uri, endpoint)` rules registered on
the app, in registration order.  The change-password route is registered
inside the forgot-password branch, from `web.changePassword.uri`. -/
def init_routes (w : WebConf) : List (String × String) :=
  (if w.register.enabled then [(w.register.uri, "stormpath.register")]
   else []) ++
  (if w.login.enabled then [(w.login.uri, "stormpath.login")] else []) ++
  (if w.forgotPassword.enabled then
     [(w.forgotPassword.uri, "stormpath.forgot"),
      (w.changePassword.uri, "stormpath.forgot_change")]
   else []) ++
  (if w.logout.enabled then [(w.logout.uri, "stormpath.logout")] else [])

/-! ## Character-level lemmas -/

theorem char_eq_of_toNat {c d : Char} (h : c.toNat = d.toNat) : c = d := by
  have := congrArg Char.ofNat h
  rwa [Char.ofNat_toNat, Char.ofNat_toNat] at this

theorem uint32_le_iff (a b : UInt32) : a ≤ b ↔ a.toNat ≤ b.toNat := by
  simp [UInt32.le_def, BitVec.le_def, UInt32.toNat]

theorem isUpper_iff (c : Char) :
    c.isUpper = true ↔ 65 ≤ c.toNat ∧ c.toNat ≤ 90 := by
  have e1 : (65 : UInt32).toNat = 65 := by decide
  have e2 : (90 : UInt32).toNat = 90 := by decide
  simp only [Char.isUpper, Bool.and_eq_true, decide_eq_true_eq, ge_iff_le,
    uint32_le_iff, e1, e2]
  exact Iff.rfl

theorem toUpper_toNat_hi (c : Char) (h : 97 ≤ c.toNat) (h2 : c.toNat ≤ 122) :
    (c.toUpper).toNat = c.toNat - 32 := by
  have he : c.toUpper = Char.ofNat (c.toNat - 32) := by
    rw [Char.toUpper]
    simp [h, h2]
  rw [he, Char.ofNat, dif_pos]
  · rfl
  · left
    have : c.toNat - 32 < 55296 := by omega
    simpa [Nat.isValidChar, UInt32.ofNat] using this

theorem toUpper_eq_self (c : Char) (h : ¬(97 ≤ c.toNat ∧ c.toNat ≤ 122)) :
    c.toUpper = c := by
  rw [Char.toUpper]
  simp only [ge_iff_le]
  rw [if_neg h]

theorem toLower_toNat_up (c : Char) (h : 65 ≤ c.toNat) (h2 : c.toNat ≤ 90) :
    (c.toLower).toNat = c.toNat + 32 := by
  have he : c.toLower = Char.ofNat (c.toNat + 32) := by
    rw [Char.toLower]
    simp [h, h2]
  rw [he, Char.ofNat, dif_pos]
  · rfl
  · left
    have : c.toNat + 32 < 55296 := by omega
    simpa [Nat.isValidChar, UInt32.ofNat] using this

theorem toLower_eq_self (c : Char) (h : ¬(65 ≤ c.toNat ∧ c.toNat ≤ 90)) :
    c.toLower = c := by
  rw [Char.toLower]
  simp only [ge_iff_le]
  rw [if_neg h]

theorem toLower_toUpper_valid (c : Char) (hv : validChar c = true)
    (hu : c.isUpper = false) : (c.toUpper).toLower = c := by
  simp [validChar] at hv
  have hu' : ¬(65 ≤ c.toNat ∧ c.toNat ≤ 90) := by
    intro h
    rw [← Bool.not_eq_true] at hu
    exact hu ((isUpper_iff c).2 h)
  rcases hv with (h | h) | h
  · rw [toUpper_eq_self c (by omega), toLower_eq_self c (by omega)]
  · omega
  · apply char_eq_of_toNat
    have h1 := toUpper_toNat_hi c h.1 h.2
    rw [toLower_toNat_up _ (by rw [h1]; omega) (by rw [h1]; omega), h1]
    omega

theorem toUpper_ne_underscore (c : Char) (hv : validChar c = true) :
    c.toUpper ≠ '_' := by
  simp [validChar] at hv
  intro h
  have h95 : c.toUpper.toNat = 95 := by rw [h]; rfl
  rcases hv with (h1 | h1) | h1
  · rw [toUpper_eq_self c (by omega)] at h95; omega
  · rw [toUpper_eq_self c (by omega)] at h95; omega
  · rw [toUpper_toNat_hi c h1.1 h1.2] at h95; omega

theorem upper_toUpper (c : Char) (hu : c.isUpper = true) : c.toUpper = c := by
  rw [isUpper_iff] at hu
  exact toUpper_eq_self c (by omega)

theorem upper_ne_underscore (c : Char) (hu : c.isUpper = true) : c ≠ '_' := by
  rw [isUpper_iff] at hu
  intro h
  have : c.toNat = 95 := by rw [h]; rfl
  omega

/-! ## Splitting and joining lemmas -/

theorem splitUnders_ne_nil (l : List Char) : splitUnders l ≠ [] := by
  cases l with
  | nil => simp [splitUnders]
  | cons c cs =>
      rw [splitUnders]
      split
      · simp
      · cases h : splitUnders cs <;> simp

theorem splitUnders_cons_ne {c : Char} (cs : List Char) (hc : c ≠ '_')
    {t : List Char} {ts : List (List Char)} (e : splitUnders cs = t :: ts) :
    splitUnders (c :: cs) = (c :: t) :: ts := by
  rw [splitUnders, if_neg hc, e]

/-! ## The camel/snake inverse (claim C2) -/

theorem camel_snake_rest :
    ∀ cs : List Char, (∀ c ∈ cs, validChar c = true) →
      ∀ t ts, splitUnders (snakeChars cs) = t :: ts →
        t.map Char.toLower ++ (ts.map titleToken).flatten = cs
  | [], _, t, ts, h => by
      simp only [snakeChars, splitUnders] at h
      injection h with h1 h2
      subst h1
      subst h2
      simp
  | d :: ds, hv, t, ts, h => by
      have hvd : validChar d = true := hv d (by simp)
      have hv' : ∀ c ∈ ds, validChar c = true := fun c hc => hv c (by simp [hc])
      rcases e : splitUnders (snakeChars ds) with _ | ⟨t', ts'⟩
      · exact absurd e (splitUnders_ne_nil _)
      by_cases hu : d.isUpper = true
      · rw [snakeChars, if_pos hu, upper_toUpper d hu] at h
        rw [splitUnders, if_pos rfl,
          splitUnders_cons_ne _ (upper_ne_underscore d hu) e] at h
        have he : t = [] ∧ ts = (d :: t') :: ts' := by
          cases h; exact ⟨rfl, rfl⟩
        rw [he.1, he.2]
        simp only [List.map_nil, List.nil_append, List.map_cons,
          List.flatten_cons, titleToken, upper_toUpper d hu]
        rw [List.cons_append]
        rw [camel_snake_rest ds hv' t' ts' e]
      · rw [snakeChars, if_neg hu] at h
        rw [splitUnders_cons_ne _ (toUpper_ne_underscore d hvd) e] at h
        have he : t = d.toUpper :: t' ∧ ts = ts' := by
          cases h; exact ⟨rfl, rfl⟩
        rw [he.1, he.2]
        simp only [List.map_cons]
        rw [List.cons_append]
        rw [toLower_toUpper_valid d hvd (by simpa using hu)]
        rw [camel_snake_rest ds hv' t' ts' e]

theorem camel_snake (cs : List Char) (hv : ∀ c ∈ cs, validChar c = true) :
    camelChars (snakeChars cs) = cs := by
  rcases e : splitUnders (snakeChars cs) with _ | ⟨t, ts⟩
  · exact absurd e (splitUnders_ne_nil _)
  · rw [camelChars, e]
    exact camel_snake_rest cs hv t ts e

/-- **Claim C2.**  For every valid path-segment name (ASCII letters and
digits only, no leading digit), the lower-camelCase-to-UPPER_SNAKE transform
and the UPPER_SNAKE-to-lower-camelCase transform are exact inverses; in
particular `toSnake (toCamel (toSnake name)) = toSnake name`. -/
theorem camel_snake_inverse (s : String) (hv : validName s = true) :
    toCamel (fromCamel s) = s ∧
      fromCamel (toCamel (fromCamel s)) = fromCamel s := by
  have hall : ∀ c ∈ s.data, validChar c = true := by
    rw [validName, Bool.and_eq_true] at hv
    exact fun c hc => List.all_eq_true.1 hv.1 c hc
  have h1 : toCamel (fromCamel s) = s := by
    show (⟨camelChars (snakeChars s.data)⟩ : String) = s
    rw [camel_snake s.data hall]
  exact ⟨h1, by rw [h1]⟩

/-- Witness for C2 at the concrete segment name `givenName`. -/
theorem camel_snake_inverse_witness :
    validName "givenName" = true ∧
      (toCamel (fromCamel "givenName") = "givenName" ∧
        fromCamel (toCamel (fromCamel "givenName")) = fromCamel "givenName") :=
  ⟨by decide, camel_snake_inverse "givenName" (by decide)⟩

/-! ## Join/split identities -/

theorem joinUnders_cons_cons (t u : List Char) (us : List (List Char)) :
    joinUnders (t :: u :: us) = t ++ '_' :: joinUnders (u :: us) := rfl

theorem joinUnders_splitUnders : ∀ l : List Char,
    joinUnders (splitUnders l) = l
  | [] => rfl
  | c :: cs => by
      rcases e : splitUnders cs with _ | ⟨u, us⟩
      · exact absurd e (splitUnders_ne_nil _)
      by_cases hc : c = '_'
      · subst hc
        rw [splitUnders, if_pos rfl, e, joinUnders_cons_cons, ← e]
        rw [joinUnders_splitUnders cs]
        rfl
      · rw [splitUnders_cons_ne _ hc e]
        have hj := joinUnders_splitUnders cs
        rw [e] at hj
        cases us with
        | nil =>
            simp only [joinUnders] at hj ⊢
            rw [hj]
        | cons w ws =>
            rw [joinUnders_cons_cons, List.cons_append, ← joinUnders_cons_cons,
              hj]

theorem mem_splitUnders_flat : ∀ (l : List Char) (t : List Char),
    t ∈ splitUnders l → '_' ∉ t
  | [], t, h => by
      simp [splitUnders] at h
      simp [h]
  | c :: cs, t, h => by
      by_cases hc : c = '_'
      · subst hc
        rw [splitUnders, if_pos rfl] at h
        rcases List.mem_cons.1 h with rfl | h'
        · simp
        · exact mem_splitUnders_flat cs t h'
      · rcases e : splitUnders cs with _ | ⟨u, us⟩
        · exact absurd e (splitUnders_ne_nil _)
        rw [splitUnders_cons_ne _ hc e] at h
        rcases List.mem_cons.1 h with rfl | h'
        · intro hm
          rcases List.mem_cons.1 hm with h1 | h1
          · exact hc h1.symm
          · exact mem_splitUnders_flat cs u (by rw [e]; simp) h1
        · exact mem_splitUnders_flat cs t (by rw [e]; simp [h'])

theorem splitUnders_flat_single : ∀ t : List Char, '_' ∉ t →
    splitUnders t = [t]
  | [], _ => rfl
  | c :: t', h => by
      have hc : c ≠ '_' := fun hc => h (by simp [hc])
      have ht' : '_' ∉ t' := fun hm => h (by simp [hm])
      rw [splitUnders_cons_ne t' hc (splitUnders_flat_single t' ht')]

theorem splitUnders_append : ∀ x y : List Char,
    splitUnders (x ++ '_' :: y) = splitUnders x ++ splitUnders y
  | [], y => by simp [splitUnders]
  | c :: x', y => by
      by_cases hc : c = '_'
      · subst hc
        show splitUnders ('_' :: (x' ++ '_' :: y)) = _
        rw [splitUnders, if_pos rfl, splitUnders_append x' y, splitUnders,
          if_pos rfl]
        rfl
      · rcases e : splitUnders x' with _ | ⟨u, us⟩
        · exact absurd e (splitUnders_ne_nil _)
        have e2 : splitUnders (x' ++ '_' :: y) = u :: (us ++ splitUnders y) := by
          rw [splitUnders_append x' y, e]
          rfl
        show splitUnders (c :: (x' ++ '_' :: y)) = _
        rw [splitUnders_cons_ne _ hc e2, splitUnders_cons_ne _ hc e]
        rfl

theorem splitUnders_joinUnders : ∀ ts : List (List Char), ts ≠ [] →
    (∀ t ∈ ts, '_' ∉ t) → splitUnders (joinUnders ts) = ts
  | [], h, _ => absurd rfl h
  | [t], _, hf => by
      simp only [joinUnders]
      exact splitUnders_flat_single t (hf t (by simp))
  | t :: u :: us, _, hf => by
      rw [joinUnders_cons_cons, splitUnders_append,
        splitUnders_flat_single t (hf t (by simp)),
        splitUnders_joinUnders (u :: us) (by simp)
          (fun x hx => hf x (by simp [List.mem_cons.1 hx]))]
      rfl

/-! ## Token lemmas for aliases -/

theorem segTok_ne_nil (k : String) : segTok k ≠ [] :=
  splitUnders_ne_nil _

theorem joinUnders_segTok (k : String) :
    joinUnders (segTok k) = snakeChars k.data :=
  joinUnders_splitUnders _

theorem segTok_flat {k : String} {t : List Char} (h : t ∈ segTok k) :
    '_' ∉ t :=
  mem_splitUnders_flat _ t h

theorem pathToks_ne_nil {P : List String} (h : P ≠ []) : pathToks P ≠ [] := by
  cases P with
  | nil => exact absurd rfl h
  | cons p P' =>
      show segTok p ++ pathToks P' ≠ []
      simp [segTok_ne_nil p]

theorem pathToks_flat {P : List String} {t : List Char}
    (h : t ∈ pathToks P) : '_' ∉ t := by
  rcases List.mem_flatMap.1 h with ⟨p, _, hp⟩
  exact segTok_flat hp

theorem run_eq_segTok {run : List (List Char)} {k : String}
    (hne : run ≠ []) (hf : ∀ t ∈ run, '_' ∉ t)
    (hj : joinUnders run = snakeChars k.data) : run = segTok k := by
  have := splitUnders_joinUnders run hne hf
  rw [hj] at this
  exact this.symm

theorem splitUnders_flatMapAlias : ∀ (P : List String) (x : List Char),
    splitUnders (x ++ P.flatMap (fun p => '_' :: snakeChars p.data)) =
      splitUnders x ++ pathToks P
  | [], x => by simp [pathToks]
  | p :: P', x => by
      show splitUnders (x ++ ('_' :: (snakeChars p.data ++
        P'.flatMap (fun q => '_' :: snakeChars q.data)))) = _
      rw [splitUnders_append, splitUnders_flatMapAlias P' (snakeChars p.data)]
      rfl

theorem splitUnders_aliasChars (P : List String) :
    splitUnders (aliasChars P) = "STORMPATH".data :: pathToks P := by
  rw [aliasChars, splitUnders_flatMapAlias]
  have : splitUnders ("STORMPATH".data) = ["STORMPATH".data] := by decide
  rw [this]
  rfl

theorem aliasOf_data (P : List String) : (aliasOf P).data = aliasChars P := rfl

theorem aliasChars_has_underscore {P : List String} (h : P ≠ []) :
    '_' ∈ aliasChars P := by
  cases P with
  | nil => exact absurd rfl h
  | cons p P' =>
      rw [aliasChars]
      simp

/-! ## Association list lemmas -/

theorem mem_of_assocLookup : ∀ {m : List (String × SNode)} {k : String}
    {c : SNode}, assocLookup m k = some c → (k, c) ∈ m
  | [], _, _, h => by simp [assocLookup] at h
  | (k', v') :: m, k, c, h => by
      rw [assocLookup] at h
      by_cases he : k' = k
      · rw [if_pos he] at h
        injection h with h
        simp [← he, ← h]
      · rw [if_neg he] at h
        exact List.mem_cons.2 (Or.inr (mem_of_assocLookup h))

theorem containsKey_of_mem : ∀ {m : List (String × SNode)} {k : String}
    {c : SNode}, (k, c) ∈ m → containsKey m k = true
  | [], _, _, h => by simp at h
  | (k', v') :: m, k, c, h => by
      rcases List.mem_cons.1 h with he | hm
      · injection he with h1 h2
        simp [containsKey, assocLookup, h1]
      · by_cases he : k' = k
        · simp [containsKey, assocLookup, he]
        · have := containsKey_of_mem hm
          simp only [containsKey, assocLookup, if_neg he]
          exact this

theorem dictLike_node (m : List (String × SNode)) :
    dictLike (SNode.node m) = dictLikeList m := by
  rw [dictLike]

theorem underFree_node (m : List (String × SNode)) :
    underFree (SNode.node m) = underFreeList m := by
  rw [underFree]

theorem dictLikeList_cons {k : String} {c : SNode}
    {m : List (String × SNode)} (h : dictLikeList ((k, c) :: m) = true) :
    containsKey m k = false ∧ dictLike c = true ∧ dictLikeList m = true := by
  rw [dictLikeList] at h
  simp only [Bool.and_eq_true, Bool.not_eq_true'] at h
  exact ⟨h.1.1, h.1.2, h.2⟩

theorem underFreeList_cons {k : String} {c : SNode}
    {m : List (String × SNode)} (h : underFreeList ((k, c) :: m) = true) :
    k.data.contains '_' = false ∧ underFree c = true ∧
      underFreeList m = true := by
  rw [underFreeList] at h
  simp only [Bool.and_eq_true, Bool.not_eq_true'] at h
  exact ⟨h.1.1, h.1.2, h.2⟩

theorem assocLookup_of_mem_nodup : ∀ {m : List (String × SNode)} {k : String}
    {c : SNode}, dictLikeList m = true → (k, c) ∈ m →
      assocLookup m k = some c
  | [], _, _, _, h => by simp at h
  | (k', v') :: m, k, c, hd, h => by
      obtain ⟨hk, _, hm⟩ := dictLikeList_cons hd
      rcases List.mem_cons.1 h with he | hmem
      · injection he with h1 h2
        rw [assocLookup, if_pos h1.symm, h2]
      · by_cases he : k' = k
        · subst he
          have := containsKey_of_mem hmem
          rw [hk] at this
          exact absurd this (by simp)
        · rw [assocLookup, if_neg he]
          exact assocLookup_of_mem_nodup hm hmem

theorem dictLike_of_mem : ∀ {m : List (String × SNode)} {k : String}
    {c : SNode}, dictLikeList m = true → (k, c) ∈ m → dictLike c = true
  | [], _, _, _, h => by simp at h
  | (k', v') :: m, k, c, hd, h => by
      obtain ⟨_, hc, hm⟩ := dictLikeList_cons hd
      rcases List.mem_cons.1 h with he | hmem
      · injection he with h1 h2
        rw [h2]
        exact hc
      · exact dictLike_of_mem hm hmem

theorem underFree_key_of_mem : ∀ {m : List (String × SNode)} {k : String}
    {c : SNode}, underFreeList m = true → (k, c) ∈ m →
      k.data.contains '_' = false
  | [], _, _, _, h => by simp at h
  | (k', v') :: m, k, c, hu, h => by
      obtain ⟨hk, _, hm⟩ := underFreeList_cons hu
      rcases List.mem_cons.1 h with he | hmem
      · injection he with h1 h2
        rw [h1]
        exact hk
      · exact underFree_key_of_mem hm hmem

theorem underFree_of_mem : ∀ {m : List (String × SNode)} {k : String}
    {c : SNode}, underFreeList m = true → (k, c) ∈ m → underFree c = true
  | [], _, _, _, h => by simp at h
  | (k', v') :: m, k, c, hu, h => by
      obtain ⟨_, hc, hm⟩ := underFreeList_cons hu
      rcases List.mem_cons.1 h with he | hmem
      · injection he with h1 h2
        rw [h2]
        exact hc
      · exact underFree_of_mem hm hmem

theorem assocLookup_assocSet_self : ∀ (m : List (String × SNode)) (k : String)
    (v : SNode), assocLookup (assocSet m k v) k = some v
  | [], k, v => by simp [assocSet, assocLookup]
  | (k', v') :: m, k, v => by
      rw [assocSet]
      by_cases he : k' = k
      · rw [if_pos he, assocLookup, if_pos rfl]
      · rw [if_neg he, assocLookup, if_neg he]
        exact assocLookup_assocSet_self m k v

theorem assocLookup_assocSet_ne : ∀ (m : List (String × SNode))
    (k k' : String) (v : SNode), k' ≠ k →
      assocLookup (assocSet m k v) k' = assocLookup m k'
  | [], k, k', v, h => by
      simp only [assocSet, assocLookup]
      rw [if_neg (fun hc => h hc.symm)]
  | (k'', v'') :: m, k, k', v, h => by
      rw [assocSet]
      by_cases he : k'' = k
      · rw [if_pos he, assocLookup, if_neg (fun hc => h hc.symm), assocLookup,
          if_neg (fun hc => h (he.symm.trans hc).symm)]
      · rw [if_neg he, assocLookup, assocLookup]
        by_cases he2 : k'' = k'
        · rw [if_pos he2, if_pos he2]
        · rw [if_neg he2, if_neg he2]
          exact assocLookup_assocSet_ne m k k' v h

theorem assocLookup_assocErase_self : ∀ {m : List (String × SNode)}
    {k : String}, dictLikeList m = true →
      assocLookup (assocErase m k) k = none
  | [], k, _ => by simp [assocErase, assocLookup]
  | (k', v') :: m, k, hd => by
      obtain ⟨hk, _, hm⟩ := dictLikeList_cons hd
      rw [assocErase]
      by_cases he : k' = k
      · rw [if_pos he]
        subst he
        rw [← Option.not_isSome_iff_eq_none, ← containsKey, hk]
        simp
      · rw [if_neg he, assocLookup, if_neg he]
        exact assocLookup_assocErase_self hm

theorem assocLookup_assocErase_ne : ∀ (m : List (String × SNode))
    (k k' : String), k' ≠ k →
      assocLookup (assocErase m k) k' = assocLookup m k'
  | [], _, _, _ => by simp [assocErase]
  | (k'', v'') :: m, k, k', h => by
      rw [assocErase]
      by_cases he : k'' = k
      · rw [if_pos he, assocLookup, if_neg]
        rw [he]
        exact fun hc => h hc.symm
      · rw [if_neg he, assocLookup, assocLookup]
        by_cases he2 : k'' = k'
        · rw [if_pos he2, if_pos he2]
        · rw [if_neg he2, if_neg he2]
          exact assocLookup_assocErase_ne m k k' h

theorem assocLookup_assocErase_isSome : ∀ (m : List (String × SNode))
    (k k' : String), (assocLookup (assocErase m k) k').isSome = true →
      (assocLookup m k').isSome = true
  | [], _, _, h => by simp [assocErase, assocLookup] at h
  | (k'', v'') :: m, k, k', h => by
      rw [assocErase] at h
      by_cases he : k'' = k
      · rw [if_pos he] at h
        rw [assocLookup]
        by_cases he2 : k'' = k'
        · rw [if_pos he2]
          rfl
        · rw [if_neg he2]
          exact h
      · rw [if_neg he, assocLookup] at h
        rw [assocLookup]
        by_cases he2 : k'' = k'
        · rw [if_pos he2] at h ⊢
          exact h
        · rw [if_neg he2] at h ⊢
          exact assocLookup_assocErase_isSome m k k' h

/-! ## Paths and membership -/

theorem pathsOf_node (m : List (String × SNode)) :
    pathsOf (SNode.node m) = pathsOfList m := by
  rw [pathsOf]

theorem mem_pathsOfList_head : ∀ (m : List (String × SNode)) (k : String)
    (c : SNode), assocLookup m k = some c → [k] ∈ pathsOfList m
  | [], _, _, h => by simp [assocLookup] at h
  | (k', c') :: m, k, c, h => by
      rw [pathsOfList]
      rw [assocLookup] at h
      by_cases he : k' = k
      · subst he
        simp
      · rw [if_neg he] at h
        exact List.mem_append_right _ (mem_pathsOfList_head m k c h)

theorem mem_pathsOfList_cons : ∀ (m : List (String × SNode)) (k : String)
    (c : SNode) (P : List String), assocLookup m k = some c →
      P ∈ pathsOf c → (k :: P) ∈ pathsOfList m
  | [], _, _, _, h, _ => by simp [assocLookup] at h
  | (k', c') :: m, k, c, P, h, hP => by
      rw [pathsOfList]
      rw [assocLookup] at h
      by_cases he : k' = k
      · subst he
        rw [if_pos rfl] at h
        injection h with h
        subst h
        apply List.mem_append_left
        apply List.mem_cons.2
        exact Or.inr (List.mem_map.2 ⟨P, hP, rfl⟩)
      · rw [if_neg he] at h
        exact List.mem_append_right _ (mem_pathsOfList_cons m k c P h hP)

theorem mem_pathsOf_of_lookup : ∀ (P : List String) (t : SNode), P ≠ [] →
    (lookupPath t P).isSome = true → P ∈ pathsOf t
  | [], _, hne, _ => absurd rfl hne
  | [k], t, _, h => by
      cases t with
      | str s => simp [lookupPath] at h
      | flag b => simp [lookupPath] at h
      | node m =>
          rw [lookupPath] at h
          cases e : assocLookup m k with
          | none => rw [e] at h; simp at h
          | some c =>
              rw [pathsOf_node]
              exact mem_pathsOfList_head m k c e
  | k :: p :: ps, t, _, h => by
      cases t with
      | str s => simp [lookupPath] at h
      | flag b => simp [lookupPath] at h
      | node m =>
          rw [lookupPath] at h
          cases e : assocLookup m k with
          | none => rw [e] at h; simp at h
          | some c =>
              rw [e] at h
              rw [pathsOf_node]
              exact mem_pathsOfList_cons m k c (p :: ps) e
                (mem_pathsOf_of_lookup (p :: ps) c (by simp) h)

/-! ## Soundness and completeness of the resolution search -/

theorem mem_splitsDesc {ts : List (List Char)}
    {p : List (List Char) × List (List Char)} (h : p ∈ splitsDesc ts) :
    p.1 ≠ [] ∧ p.1 ++ p.2 = ts ∧ p.2.length < ts.length := by
  rcases List.mem_map.1 h with ⟨i, hi, hp⟩
  rw [List.mem_range] at hi
  subst hp
  refine ⟨?_, List.take_append_drop _ _, ?_⟩
  · intro hnil
    have hlen := congrArg List.length hnil
    rw [List.length_take] at hlen
    simp at hlen
    omega
  · rw [List.length_drop]
    omega

theorem mem_splitsDesc_of {ts : List (List Char)} {j : Nat}
    (h1 : 1 ≤ j) (h2 : j ≤ ts.length) :
    (ts.take j, ts.drop j) ∈ splitsDesc ts := by
  have hj : j = ts.length - (ts.length - j) := by omega
  refine List.mem_map.2 ⟨ts.length - j, ?_, ?_⟩
  · rw [List.mem_range]
    omega
  · rw [← hj]

theorem resolveAux_sound : ∀ (n : Nat) (t : SNode) (ts : List (List Char))
    (P : List String), resolveAux n t ts = some P →
    dictLike t = true → (∀ tok ∈ ts, '_' ∉ tok) →
    P ≠ [] ∧ pathToks P = ts ∧ (lookupPath t P).isSome = true
  | 0, _, _, _, h, _, _ => by simp [resolveAux] at h
  | _ + 1, SNode.str _, _, _, h, _, _ => by simp [resolveAux] at h
  | _ + 1, SNode.flag _, _, _, h, _, _ => by simp [resolveAux] at h
  | n + 1, SNode.node m, ts, P, h, hd, hf => by
      rw [dictLike_node] at hd
      rw [resolveAux] at h
      obtain ⟨p, hp, he⟩ := List.exists_of_findSome?_eq_some h
      obtain ⟨e, hem, hee⟩ := List.exists_of_findSome?_eq_some he
      obtain ⟨hrun, happ, _⟩ := mem_splitsDesc hp
      have hemem : (e.1, e.2) ∈ m := hem
      by_cases hj : joinUnders p.1 = snakeChars e.1.data
      case neg => rw [if_neg hj] at hee; simp at hee
      rw [if_pos hj] at hee
      have hflat1 : ∀ tok ∈ p.1, '_' ∉ tok := fun tok htok =>
        hf tok (by rw [← happ]; exact List.mem_append_left _ htok)
      have hrunseg : p.1 = segTok e.1 := run_eq_segTok hrun hflat1 hj
      have hlook : assocLookup m e.1 = some e.2 :=
        assocLookup_of_mem_nodup hd hemem
      by_cases hrest : p.2 = []
      · rw [if_pos hrest] at hee
        injection hee with hee
        subst hee
        refine ⟨by simp, ?_, ?_⟩
        · have : pathToks [e.1] = segTok e.1 := by simp [pathToks]
          rw [this, ← hrunseg, ← happ, hrest, List.append_nil]
        · simp [lookupPath, hlook]
      · rw [if_neg hrest] at hee
        obtain ⟨P', hP', hPe⟩ := Option.map_eq_some'.1 hee
        subst hPe
        have hflat2 : ∀ tok ∈ p.2, '_' ∉ tok := fun tok htok =>
          hf tok (by rw [← happ]; exact List.mem_append_right _ htok)
        obtain ⟨hne', htok', hl'⟩ := resolveAux_sound n e.2 p.2 P' hP'
          (dictLike_of_mem hd hemem) hflat2
        refine ⟨by simp, ?_, ?_⟩
        · have : pathToks (e.1 :: P') = segTok e.1 ++ pathToks P' := by
            simp [pathToks]
          rw [this, htok', ← hrunseg, happ]
        · simp only [lookupPath, hlook]
          exact hl'

theorem resolveAux_complete : ∀ (P : List String) (t : SNode) (n : Nat),
    P ≠ [] → (lookupPath t P).isSome = true → (pathToks P).length ≤ n →
    (resolveAux n t (pathToks P)).isSome = true
  | [], _, _, hne, _, _ => absurd rfl hne
  | [k], t, n, _, h, hn => by
      cases t with
      | str s => simp [lookupPath] at h
      | flag b => simp [lookupPath] at h
      | node m =>
          rw [lookupPath] at h
          cases e : assocLookup m k with
          | none => rw [e] at h; simp at h
          | some c =>
              have hts : pathToks [k] = segTok k := by simp [pathToks]
              have hlen : 1 ≤ (segTok k).length :=
                List.length_pos.2 (segTok_ne_nil k)
              rw [hts] at hn ⊢
              cases n with
              | zero => omega
              | succ n' =>
                  rw [resolveAux]
                  apply List.findSome?_isSome_iff.2
                  refine ⟨(segTok k, []), ?_, ?_⟩
                  · have := @mem_splitsDesc_of (segTok k)
                      (segTok k).length hlen (le_refl _)
                    rwa [List.take_length, List.drop_length] at this
                  · apply List.findSome?_isSome_iff.2
                    refine ⟨(k, c), mem_of_assocLookup e, ?_⟩
                    rw [if_pos (joinUnders_segTok k), if_pos rfl]
                    rfl
  | k :: p :: ps, t, n, _, h, hn => by
      cases t with
      | str s => simp [lookupPath] at h
      | flag b => simp [lookupPath] at h
      | node m =>
          rw [lookupPath] at h
          cases e : assocLookup m k with
          | none => rw [e] at h; simp at h
          | some c =>
              rw [e] at h
              have hts : pathToks (k :: p :: ps) =
                  segTok k ++ pathToks (p :: ps) := by simp [pathToks]
              have hlen1 : 1 ≤ (segTok k).length :=
                List.length_pos.2 (segTok_ne_nil k)
              have hlen2 : 1 ≤ (pathToks (p :: ps)).length :=
                List.length_pos.2 (pathToks_ne_nil (by simp))
              rw [hts] at hn ⊢
              rw [List.length_append] at hn
              cases n with
              | zero => omega
              | succ n' =>
                  rw [resolveAux]
                  apply List.findSome?_isSome_iff.2
                  refine ⟨(segTok k, pathToks (p :: ps)), ?_, ?_⟩
                  · have := @mem_splitsDesc_of
                      (segTok k ++ pathToks (p :: ps))
                      (segTok k).length hlen1
                      (by rw [List.length_append]; omega)
                    rwa [List.take_left, List.drop_left] at this
                  · apply List.findSome?_isSome_iff.2
                    refine ⟨(k, c), mem_of_assocLookup e, ?_⟩
                    rw [if_pos (joinUnders_segTok k),
                      if_neg (@pathToks_ne_nil (p :: ps) (by simp))]
                    rw [Option.isSome_map']
                    exact resolveAux_complete (p :: ps) c n' (by simp) h
                      (by omega)

theorem resolveTokens_eq (t : SNode) (P : List String)
    (hd : dictLike t = true) (ha : aliasSep t) (hP : P ≠ [])
    (hl : (lookupPath t P).isSome = true) :
    resolveTokens t (pathToks P) = some P := by
  have hc := resolveAux_complete P t (pathToks P).length hP hl (le_refl _)
  obtain ⟨Q, hQ⟩ := Option.isSome_iff_exists.1 hc
  obtain ⟨hQne, hQtok, hQl⟩ := resolveAux_sound _ _ _ _ hQ hd
    (fun _ ht => pathToks_flat ht)
  have hPmem := mem_pathsOf_of_lookup P t hP hl
  have hQmem := mem_pathsOf_of_lookup Q t hQne hQl
  have hQP : Q = P := List.inj_on_of_nodup_map ha hQmem hPmem hQtok
  rw [resolveTokens, hQ, hQP]

/-! ## Resolution of a path's own alias -/

theorem containsKey_aliasOf (store : List (String × SNode)) (P : List String)
    (hu : underFreeList store = true) (hP : P ≠ []) :
    containsKey store (aliasOf P) = false := by
  by_contra hc
  rw [Bool.not_eq_false, containsKey] at hc
  obtain ⟨c, hc⟩ := Option.isSome_iff_exists.1 hc
  have hkey := underFree_key_of_mem hu (mem_of_assocLookup hc)
  have hund : '_' ∈ (aliasOf P).data := by
    rw [aliasOf_data]
    exact aliasChars_has_underscore hP
  have : (aliasOf P).data.contains '_' = true := by
    show List.elem '_' (aliasOf P).data = true
    exact List.elem_iff.2 hund
  rw [this] at hkey
  exact absurd hkey (by simp)

theorem decomposeKey_aliasOf (store : List (String × SNode))
    (P : List String) :
    decomposeKey store (aliasOf P) =
      resolveTokens (SNode.node store) (pathToks P) := by
  rw [decomposeKey, aliasOf_data, splitUnders_aliasChars, stripTokens,
    if_pos rfl]

theorem resolveKey_aliasOf (store : List (String × SNode))
    (maps : List (String × String)) (P : List String)
    (hd : dictLike (SNode.node store) = true)
    (hu : underFree (SNode.node store) = true)
    (ha : aliasSep (SNode.node store))
    (hm : mapLookup maps (aliasOf P) = none)
    (hP : P ≠ []) (hl : (lookupPath (SNode.node store) P).isSome = true) :
    resolveKey ⟨store, maps⟩ (aliasOf P) = some P := by
  rw [underFree_node] at hu
  rw [resolveKey]
  show (if containsKey store (aliasOf P) = true then _ else _) = _
  rw [containsKey_aliasOf store P hu hP]
  rw [if_neg (by simp)]
  show decomposeKey store ((mapLookup maps (aliasOf P)).getD (aliasOf P)) = _
  rw [hm]
  show decomposeKey store (aliasOf P) = _
  rw [decomposeKey_aliasOf]
  exact resolveTokens_eq _ P hd ha hP hl

/-! ## Write-path lemmas -/

theorem setPath_isSome : ∀ (t : SNode) (P : List String) (v : SNode),
    P ≠ [] → (lookupPath t P).isSome = true → (setPath t P v).isSome = true
  | _, [], _, hne, _ => absurd rfl hne
  | t, [k], v, _, h => by
      cases t with
      | str s => simp [lookupPath] at h
      | flag b => simp [lookupPath] at h
      | node m => simp [setPath]
  | t, k :: p :: ps, v, _, h => by
      cases t with
      | str s => simp [lookupPath] at h
      | flag b => simp [lookupPath] at h
      | node m =>
          rw [lookupPath] at h
          cases e : assocLookup m k with
          | none => rw [e] at h; simp at h
          | some c =>
              rw [e] at h
              simp only [setPath, e, Option.isSome_map']
              exact setPath_isSome c (p :: ps) v (by simp) h

theorem setPath_node : ∀ (m : List (String × SNode)) (P : List String)
    (v t' : SNode), P ≠ [] → setPath (SNode.node m) P v = some t' →
      ∃ m', t' = SNode.node m'
  | m, [], v, t', hne, _ => absurd rfl hne
  | m, [k], v, t', _, h => by
      rw [setPath] at h
      injection h with h
      exact ⟨_, h.symm⟩
  | m, k :: p :: ps, v, t', _, h => by
      rw [setPath] at h
      cases e : assocLookup m k with
      | none => rw [e] at h; simp at h
      | some c =>
          rw [e] at h
          obtain ⟨c', _, he⟩ := Option.map_eq_some'.1 h
          exact ⟨_, he.symm⟩

theorem lookupPath_setPath : ∀ (t : SNode) (P : List String) (v t' : SNode),
    P ≠ [] → setPath t P v = some t' →
    ∀ Q, lookupPath t' (P ++ Q) = lookupPath v Q
  | _, [], _, _, hne, _ => absurd rfl hne
  | t, [k], v, t', _, h => by
      cases t with
      | str s => simp [setPath] at h
      | flag b => simp [setPath] at h
      | node m =>
          rw [setPath] at h
          injection h with h
          subst h
          intro Q
          show lookupPath (SNode.node (assocSet m k v)) (k :: Q) = _
          rw [lookupPath, assocLookup_assocSet_self]
  | t, k :: p :: ps, v, t', _, h => by
      cases t with
      | str s => simp [setPath] at h
      | flag b => simp [setPath] at h
      | node m =>
          rw [setPath] at h
          cases e : assocLookup m k with
          | none => rw [e] at h; simp at h
          | some c =>
              rw [e] at h
              obtain ⟨c', hc', he⟩ := Option.map_eq_some'.1 h
              subst he
              intro Q
              show lookupPath (SNode.node (assocSet m k c'))
                (k :: ((p :: ps) ++ Q)) = _
              rw [lookupPath, assocLookup_assocSet_self]
              exact lookupPath_setPath c (p :: ps) v c' (by simp) hc' Q

theorem getItem_aliasOf (store : List (String × SNode))
    (maps : List (String × String)) (P : List String)
    (hd : dictLike (SNode.node store) = true)
    (hu : underFree (SNode.node store) = true)
    (ha : aliasSep (SNode.node store))
    (hm : mapLookup maps (aliasOf P) = none)
    (hP : P ≠ []) (hl : (lookupPath (SNode.node store) P).isSome = true) :
    getItem ⟨store, maps⟩ (aliasOf P) = lookupPath (SNode.node store) P := by
  rw [getItem, resolveKey_aliasOf store maps P hd hu ha hm hP hl]
  rfl

theorem setViaPath_eq (store : List (String × SNode))
    (maps : List (String × String)) (P : List String) (v : SNode)
    (hP : P ≠ []) (hl : (lookupPath (SNode.node store) P).isSome = true) :
    ∃ store', setPath (SNode.node store) P v = some (SNode.node store') ∧
      setViaPath ⟨store, maps⟩ P v = some ⟨store', maps⟩ ∧
      lookupPath (SNode.node store') P = some v := by
  have hs := setPath_isSome (SNode.node store) P v hP hl
  obtain ⟨t', ht'⟩ := Option.isSome_iff_exists.1 hs
  obtain ⟨store', rfl⟩ := setPath_node store P v t' hP ht'
  refine ⟨store', ht', ?_, ?_⟩
  · rw [setViaPath, ht']
    rfl
  · have hq := lookupPath_setPath (SNode.node store) P v _ hP ht' []
    rw [List.append_nil] at hq
    rw [hq]
    cases v <;> rfl

theorem setViaPath_inv (store store' : List (String × SNode))
    (maps : List (String × String)) (P : List String) (v : SNode)
    (hP : P ≠ [])
    (h : setViaPath ⟨store, maps⟩ P v = some ⟨store', maps⟩) :
    setPath (SNode.node store) P v = some (SNode.node store') := by
  rw [setViaPath] at h
  cases e : setPath (SNode.node store) P v with
  | none => rw [e] at h; simp at h
  | some t' =>
      rw [e] at h
      obtain ⟨m', rfl⟩ := setPath_node store P v t' hP e
      simp only [Option.bind_some] at h
      injection h with h
      injection h with h1 h2
      subst h1
      rfl

/-- **Claim C1 (amended).**  For every path `P` of a store whose mappings
have duplicate-free keys (as Python dicts do), whose segment names are
underscore-free, in which no two distinct paths flatten to the same alias,
and whose explicit alias table has no entry overriding `P`'s alias: reading
via `P`'s flattened upper-snake-case alias returns the same value as reading
via the nested path sequence; an indexed write through the alias is the very
same operation as the path-mode write, so it is immediately visible through
the other mode; and a path-mode write is visible through a subsequent alias
read whenever the updated store still satisfies the same conditions.  The
unamended claim, quantified over all reachable stores, is refuted by
`alias_equivalence_cex`. -/
theorem alias_equivalence (store : List (String × SNode))
    (maps : List (String × String)) (P : List String) (v : SNode)
    (hd : dictLike (SNode.node store) = true)
    (hu : underFree (SNode.node store) = true)
    (ha : aliasSep (SNode.node store))
    (hm : mapLookup maps (aliasOf P) = none)
    (hP : P ≠ []) (hl : (lookupPath (SNode.node store) P).isSome = true) :
    getItem ⟨store, maps⟩ (aliasOf P) = lookupPath (SNode.node store) P
    ∧ setItem ⟨store, maps⟩ (aliasOf P) v = setViaPath ⟨store, maps⟩ P v
    ∧ (∃ store', setViaPath ⟨store, maps⟩ P v = some ⟨store', maps⟩ ∧
        lookupPath (SNode.node store') P = some v)
    ∧ (∀ store', setViaPath ⟨store, maps⟩ P v = some ⟨store', maps⟩ →
        dictLike (SNode.node store') = true →
        underFree (SNode.node store') = true →
        aliasSep (SNode.node store') →
        getItem ⟨store', maps⟩ (aliasOf P) = some v) := by
  refine ⟨getItem_aliasOf store maps P hd hu ha hm hP hl, ?_, ?_, ?_⟩
  · rw [setItem, resolveKey_aliasOf store maps P hd hu ha hm hP hl]
    rfl
  · obtain ⟨store', _, h2, h3⟩ := setViaPath_eq store maps P v hP hl
    exact ⟨store', h2, h3⟩
  · intro store' hset hd' hu' ha'
    have hsp := setViaPath_inv store store' maps P v hP hset
    have hq := lookupPath_setPath (SNode.node store) P v _ hP hsp []
    rw [List.append_nil] at hq
    have hval : lookupPath (SNode.node store') P = some v := by
      rw [hq]
      cases v <;> rfl
    have hl' : (lookupPath (SNode.node store') P).isSome = true := by
      rw [hval]
      rfl
    rw [getItem_aliasOf store' maps P hd' hu' ha' hm hP hl', hval]

/-- **Claim C1, counterexample to the unamended statement.**  In the store
`{given: {name: "A"}, givenName: "B"}` (allowed by the constructor's keyword
subtrees), the path `given.name` holds `"A"` while reading its flattened
alias `STORMPATH_GIVEN_NAME` returns `"B"`; and in the default store the
explicit alias-table entry for `STORMPATH_APPLICATION` makes the alias of
the path `[application]` read a different value than the path itself. -/
theorem alias_equivalence_cex :
    (lookupPath (SNode.node ambStore) ["given", "name"] = some (SNode.str "A")
      ∧ getItem ⟨ambStore, []⟩ (aliasOf ["given", "name"]) =
          some (SNode.str "B"))
    ∧ getItem defaultSettings (aliasOf ["application"]) ≠
        lookupPath (SNode.node defaultStore) ["application"] := by
  exact ⟨⟨by decide, by decide⟩, by decide⟩

/-- Witness for C1 on the concrete store
`{web: {register: {enabled: true}}}` at the path `web.register.enabled`. -/
theorem alias_equivalence_witness :
    dictLike (SNode.node webStore) = true ∧
    underFree (SNode.node webStore) = true ∧
    aliasSep (SNode.node webStore) ∧
    (lookupPath (SNode.node webStore)
      ["web", "register", "enabled"]).isSome = true ∧
    (getItem ⟨webStore, []⟩ (aliasOf ["web", "register", "enabled"]) =
        lookupPath (SNode.node webStore) ["web", "register", "enabled"]
      ∧ setItem ⟨webStore, []⟩ (aliasOf ["web", "register", "enabled"])
          (SNode.flag false) =
        setViaPath ⟨webStore, []⟩ ["web", "register", "enabled"]
          (SNode.flag false)
      ∧ (∃ store', setViaPath ⟨webStore, []⟩ ["web", "register", "enabled"]
            (SNode.flag false) = some ⟨store', []⟩ ∧
          lookupPath (SNode.node store') ["web", "register", "enabled"] =
            some (SNode.flag false))
      ∧ (∀ store', setViaPath ⟨webStore, []⟩ ["web", "register", "enabled"]
            (SNode.flag false) = some ⟨store', []⟩ →
          dictLike (SNode.node store') = true →
          underFree (SNode.node store') = true →
          aliasSep (SNode.node store') →
          getItem ⟨store', []⟩ (aliasOf ["web", "register", "enabled"]) =
            some (SNode.flag false))) :=
  ⟨by decide, by decide, by decide, by decide,
    alias_equivalence webStore [] ["web", "register", "enabled"]
      (SNode.flag false) (by decide) (by decide) (by decide) rfl
      (by decide) (by decide)⟩

/-! ## Soundness of key resolution -/

theorem decomposeKey_sound (store : List (String × SNode)) (key : String)
    (P : List String) (hd : dictLike (SNode.node store) = true)
    (h : decomposeKey store key = some P) :
    P ≠ [] ∧ (lookupPath (SNode.node store) P).isSome = true := by
  rw [decomposeKey] at h
  rcases e : splitUnders key.data with _ | ⟨t, rest⟩
  · exact absurd e (splitUnders_ne_nil _)
  rw [e, stripTokens] at h
  by_cases ht : t = "STORMPATH".data
  · rw [if_pos ht, resolveTokens] at h
    obtain ⟨hne, _, hl⟩ := resolveAux_sound _ _ _ _ h hd
      (fun tok hm => mem_splitUnders_flat key.data tok (by rw [e]; simp [hm]))
    exact ⟨hne, hl⟩
  · rw [if_neg ht, resolveTokens] at h
    obtain ⟨hne, _, hl⟩ := resolveAux_sound _ _ _ _ h hd
      (fun tok hm => mem_splitUnders_flat key.data tok (by rw [e]; exact hm))
    exact ⟨hne, hl⟩

theorem resolveKey_sound (s : StormpathSettings) (key : String)
    (P : List String) (hd : dictLike (SNode.node s.store) = true)
    (h : resolveKey s key = some P) :
    P ≠ [] ∧ (lookupPath (SNode.node s.store) P).isSome = true := by
  rw [resolveKey] at h
  by_cases hc : containsKey s.store key = true
  · rw [if_pos hc] at h
    injection h with h
    subst h
    refine ⟨by simp, ?_⟩
    rw [containsKey] at hc
    obtain ⟨c, hcc⟩ := Option.isSome_iff_exists.1 hc
    simp [lookupPath, hcc]
  · rw [if_neg hc] at h
    exact decomposeKey_sound s.store _ P hd h

/-- **Claim C4.**  An indexed write through a key that does not resolve to
any existing path fails with the unknown-setting error (`none`, so no new
store is produced and the store is unchanged), and writes succeed only for
keys resolvable to a path already present in the store. -/
theorem setItem_unknown (s : StormpathSettings) (key : String) (v : SNode)
    (hd : dictLike (SNode.node s.store) = true) :
    (setItem s key v = none ↔ resolveKey s key = none)
    ∧ (∀ s', setItem s key v = some s' →
        ∃ P, resolveKey s key = some P ∧ P ≠ [] ∧
          (lookupPath (SNode.node s.store) P).isSome = true) := by
  constructor
  · constructor
    · intro h
      cases e : resolveKey s key with
      | none => rfl
      | some P =>
          obtain ⟨hne, hl⟩ := resolveKey_sound s key P hd e
          obtain ⟨t', ht'⟩ := Option.isSome_iff_exists.1
            (setPath_isSome (SNode.node s.store) P v hne hl)
          obtain ⟨m', rfl⟩ := setPath_node s.store P v t' hne ht'
          rw [setItem, e] at h
          simp only [Option.some_bind] at h
          rw [ht'] at h
          simp at h
    · intro h
      rw [setItem, h]
      rfl
  · intro s' h
    cases e : resolveKey s key with
    | none =>
        rw [setItem, e] at h
        simp at h
    | some P =>
        obtain ⟨hne, hl⟩ := resolveKey_sound s key P hd e
        exact ⟨P, rfl, hne, hl⟩

/-- Witness for C4: on the empty store the key `STORMPATH_WEB_SETTING`
resolves to nothing, so the write fails (matching `test_set`). -/
theorem setItem_unknown_witness :
    dictLike (SNode.node ([] : List (String × SNode))) = true ∧
    resolveKey ⟨[], []⟩ "STORMPATH_WEB_SETTING" = none ∧
    setItem ⟨[], []⟩ "STORMPATH_WEB_SETTING" (SNode.str "StormWebSetting") =
      none :=
  ⟨by decide, by decide,
    (setItem_unknown ⟨[], []⟩ "STORMPATH_WEB_SETTING"
      (SNode.str "StormWebSetting") (by decide)).1.2 (by decide)⟩

/-- **Claim C6.**  Assigning any value through a resolvable key replaces the
entire subtree at the resolved path: afterwards every read below that path
sees exactly the assigned value (no merge with the previous subtree), and in
particular a scalar assigned over a subtree replaces the subtree. -/
theorem setItem_replaces (s : StormpathSettings) (key : String) (v : SNode)
    (P : List String) (hd : dictLike (SNode.node s.store) = true)
    (hres : resolveKey s key = some P) :
    ∃ s', setItem s key v = some s' ∧ s'.mappings = s.mappings ∧
      ∀ Q, lookupPath (SNode.node s'.store) (P ++ Q) = lookupPath v Q := by
  obtain ⟨hne, hl⟩ := resolveKey_sound s key P hd hres
  obtain ⟨t', ht'⟩ := Option.isSome_iff_exists.1
    (setPath_isSome (SNode.node s.store) P v hne hl)
  obtain ⟨m', rfl⟩ := setPath_node s.store P v t' hne ht'
  refine ⟨⟨m', s.mappings⟩, ?_, rfl, ?_⟩
  · rw [setItem, hres]
    show Option.bind (setPath (SNode.node s.store) P v) _ = _
    rw [ht']
    rfl
  · exact fun Q => lookupPath_setPath _ P v _ hne ht' Q

/-- Witness for C6: assigning the scalar `'StormWebSetting'` over the
subtree at `web` through the alias `STORMPATH_WEB` (matching `test_set`). -/
theorem setItem_replaces_witness :
    dictLike (SNode.node [("web",
        SNode.node [("setting", SNode.str "StormSetting")])]) = true ∧
    resolveKey ⟨[("web", SNode.node [("setting", SNode.str "StormSetting")])],
        []⟩ "STORMPATH_WEB" = some ["web"] ∧
    (∃ s', setItem ⟨[("web",
          SNode.node [("setting", SNode.str "StormSetting")])], []⟩
        "STORMPATH_WEB" (SNode.str "StormWebSetting") = some s' ∧
      s'.mappings = [] ∧
      ∀ Q, lookupPath (SNode.node s'.store) (["web"] ++ Q) =
        lookupPath (SNode.str "StormWebSetting") Q) :=
  ⟨by decide, by decide,
    setItem_replaces ⟨[("web",
        SNode.node [("setting", SNode.str "StormSetting")])], []⟩
      "STORMPATH_WEB" (SNode.str "StormWebSetting") ["web"] (by decide)
      (by decide)⟩

/-- **Claim C3.**  An explicit alias-table entry for a flattened key is used
in preference to camel-case decomposition of the key; a longer alias still
resolves to its deeper field (the short table entry does not shadow it); and
concretely, setting `STORMPATH_APPLICATION` to `'MyApp'` on the default
store makes `store.get('application')['name']` and
`store['STORMPATH_APPLICATION']` both equal `'MyApp'`. -/
theorem mapping_preference (s : StormpathSettings) (key key' : String)
    (h1 : containsKey s.store key = false)
    (h2 : mapLookup s.mappings key = some key') :
    resolveKey s key = decomposeKey s.store key'
    ∧ resolveKey defaultSettings "STORMPATH_APPLICATION" =
        some ["application", "name"]
    ∧ resolveKey ⟨defaultStore, []⟩ "STORMPATH_APPLICATION" =
        some ["application"]
    ∧ resolveKey defaultSettings "STORMPATH_APPLICATION_NAME" =
        some ["application", "name"]
    ∧ setItem defaultSettings "STORMPATH_APPLICATION" (SNode.str "MyApp") =
        some appSetStore
    ∧ lookupPath (SNode.node appSetStore.store) ["application", "name"] =
        some (SNode.str "MyApp")
    ∧ getItem appSetStore "STORMPATH_APPLICATION" = some (SNode.str "MyApp")
    ∧ (∃ appNode, getItem appSetStore "application" = some appNode
        ∧ lookupPath appNode ["name"] = some (SNode.str "MyApp")) := by
  refine ⟨?_, by decide, by decide, by decide, by decide, by decide,
    by decide, ?_⟩
  · rw [resolveKey, if_neg (by simp [h1]), h2]
    rfl
  · exact ⟨SNode.node [("name", SNode.str "MyApp"), ("href", SNode.str "")],
      by decide, by decide⟩

/-- Witness for C3 at the default store's `STORMPATH_APPLICATION` entry. -/
theorem mapping_preference_witness :
    containsKey defaultSettings.store "STORMPATH_APPLICATION" = false ∧
    mapLookup defaultSettings.mappings "STORMPATH_APPLICATION" =
      some "STORMPATH_APPLICATION_NAME" ∧
    resolveKey defaultSettings "STORMPATH_APPLICATION" =
      decomposeKey defaultSettings.store "STORMPATH_APPLICATION_NAME" :=
  ⟨by decide, by decide,
    (mapping_preference defaultSettings "STORMPATH_APPLICATION"
      "STORMPATH_APPLICATION_NAME" (by decide) (by decide)).1⟩

/-! ## Deletion lemmas -/

theorem containsKey_assocErase_mono (m : List (String × SNode))
    (k k' : String) (h : containsKey (assocErase m k) k' = true) :
    containsKey m k' = true :=
  assocLookup_assocErase_isSome m k k' h

theorem dictLikeList_assocErase : ∀ (m : List (String × SNode)) (k : String),
    dictLikeList m = true → dictLikeList (assocErase m k) = true
  | [], _, _ => rfl
  | (k', c') :: m, k, hd => by
      obtain ⟨hk, hc, hm⟩ := dictLikeList_cons hd
      rw [assocErase]
      by_cases he : k' = k
      · rw [if_pos he]
        exact hm
      · rw [if_neg he, dictLikeList]
        have h1 : containsKey (assocErase m k) k' = false := by
          by_contra hcc
          rw [Bool.not_eq_false] at hcc
          rw [containsKey_assocErase_mono m k k' hcc] at hk
          exact absurd hk (by simp)
        rw [h1, hc, dictLikeList_assocErase m k hm]
        rfl

theorem underFreeList_assocErase : ∀ (m : List (String × SNode)) (k : String),
    underFreeList m = true → underFreeList (assocErase m k) = true
  | [], _, _ => rfl
  | (k', c') :: m, k, hu => by
      obtain ⟨hk, hc, hm⟩ := underFreeList_cons hu
      rw [assocErase]
      by_cases he : k' = k
      · rw [if_pos he]
        exact hm
      · rw [if_neg he, underFreeList, hk, hc,
          underFreeList_assocErase m k hm]
        rfl

theorem dictLikeList_assocSet : ∀ (m : List (String × SNode)) (k : String)
    (v : SNode), dictLikeList m = true → containsKey m k = true →
      dictLike v = true → dictLikeList (assocSet m k v) = true
  | [], k, v, _, hc, _ => by simp [containsKey, assocLookup] at hc
  | (k', c') :: m, k, v, hd, hc, hv => by
      obtain ⟨hk, hc', hm⟩ := dictLikeList_cons hd
      rw [assocSet]
      by_cases he : k' = k
      · rw [if_pos he, dictLikeList]
        subst he
        rw [hk, hv, hm]
        rfl
      · rw [if_neg he, dictLikeList]
        have hck : containsKey m k = true := by
          rw [containsKey, assocLookup, if_neg he] at hc
          exact hc
        have h1 : containsKey (assocSet m k v) k' = false := by
          rw [containsKey, assocLookup_assocSet_ne m k k' v he, ← containsKey]
          exact hk
        rw [h1, hc', dictLikeList_assocSet m k v hm hck hv]
        rfl

theorem underFreeList_assocSet : ∀ (m : List (String × SNode)) (k : String)
    (v : SNode), underFreeList m = true → containsKey m k = true →
      underFree v = true → underFreeList (assocSet m k v) = true
  | [], k, v, _, hc, _ => by simp [containsKey, assocLookup] at hc
  | (k', c') :: m, k, v, hu, hc, hv => by
      obtain ⟨hk, hc', hm⟩ := underFreeList_cons hu
      rw [assocSet]
      by_cases he : k' = k
      · rw [if_pos he, underFreeList]
        subst he
        rw [hk, hv, hm]
        rfl
      · rw [if_neg he, underFreeList]
        have hck : containsKey m k = true := by
          rw [containsKey, assocLookup, if_neg he] at hc
          exact hc
        rw [hk, hc', underFreeList_assocSet m k v hm hck hv]
        rfl

theorem delPath_preserves : ∀ (t : SNode) (P : List String) (t' : SNode),
    dictLike t = true → underFree t = true → delPath t P = some t' →
    dictLike t' = true ∧ underFree t' = true
  | _, [], _, _, _, h => by simp [delPath] at h
  | t, [k], t', hd, hu, h => by
      cases t with
      | str s => simp [delPath] at h
      | flag b => simp [delPath] at h
      | node m =>
          rw [delPath] at h
          by_cases hc : containsKey m k = true
          · rw [if_pos hc] at h
            injection h with h
            subst h
            rw [dictLike_node] at hd ⊢
            rw [underFree_node] at hu ⊢
            exact ⟨dictLikeList_assocErase m k hd,
              underFreeList_assocErase m k hu⟩
          · rw [if_neg hc] at h
            simp at h
  | t, k :: p :: ps, t', hd, hu, h => by
      cases t with
      | str s => simp [delPath] at h
      | flag b => simp [delPath] at h
      | node m =>
          rw [delPath] at h
          cases e : assocLookup m k with
          | none => rw [e] at h; simp at h
          | some c =>
              rw [e] at h
              obtain ⟨c', hc', he⟩ := Option.map_eq_some'.1 h
              subst he
              rw [dictLike_node] at hd ⊢
              rw [underFree_node] at hu ⊢
              have hmem := mem_of_assocLookup e
              obtain ⟨hd', hu'⟩ := delPath_preserves c (p :: ps) c'
                (dictLike_of_mem hd hmem) (underFree_of_mem hu hmem) hc'
              exact ⟨dictLikeList_assocSet m k c' hd
                  (containsKey_of_mem hmem) hd',
                underFreeList_assocSet m k c' hu
                  (containsKey_of_mem hmem) hu'⟩

theorem lookupPath_delPath_cascade : ∀ (t : SNode) (P : List String)
    (t' : SNode), dictLike t = true → delPath t P = some t' →
    ∀ Q, lookupPath t' (P ++ Q) = none
  | _, [], _, _, h => by simp [delPath] at h
  | t, [k], t', hd, h => by
      cases t with
      | str s => simp [delPath] at h
      | flag b => simp [delPath] at h
      | node m =>
          rw [delPath] at h
          by_cases hc : containsKey m k = true
          · rw [if_pos hc] at h
            injection h with h
            subst h
            intro Q
            rw [dictLike_node] at hd
            show lookupPath (SNode.node (assocErase m k)) (k :: Q) = none
            rw [lookupPath, assocLookup_assocErase_self hd]
          · rw [if_neg hc] at h
            simp at h
  | t, k :: p :: ps, t', hd, h => by
      cases t with
      | str s => simp [delPath] at h
      | flag b => simp [delPath] at h
      | node m =>
          rw [delPath] at h
          cases e : assocLookup m k with
          | none => rw [e] at h; simp at h
          | some c =>
              rw [e] at h
              obtain ⟨c', hc', he⟩ := Option.map_eq_some'.1 h
              subst he
              intro Q
              rw [dictLike_node] at hd
              show lookupPath (SNode.node (assocSet m k c'))
                (k :: ((p :: ps) ++ Q)) = none
              rw [lookupPath, assocLookup_assocSet_self]
              exact lookupPath_delPath_cascade c (p :: ps) c'
                (dictLike_of_mem hd (mem_of_assocLookup e)) hc' Q

theorem lookupPath_delPath_isSome : ∀ (t : SNode) (P : List String)
    (t' : SNode), dictLike t = true → delPath t P = some t' →
    ∀ R, (lookupPath t' R).isSome = true → (lookupPath t R).isSome = true
  | _, [], _, _, h => by simp [delPath] at h
  | t, [k], t', hd, h => by
      cases t with
      | str s => simp [delPath] at h
      | flag b => simp [delPath] at h
      | node m =>
          rw [delPath] at h
          by_cases hc : containsKey m k = true
          · rw [if_pos hc] at h
            injection h with h
            subst h
            rw [dictLike_node] at hd
            intro R hR
            cases R with
            | nil => rfl
            | cons r R' =>
                rw [lookupPath] at hR ⊢
                by_cases hr : r = k
                · subst hr
                  rw [assocLookup_assocErase_self hd] at hR
                  simp at hR
                · rw [assocLookup_assocErase_ne m k r
                    (fun hc2 => hr hc2)] at hR
                  exact hR
          · rw [if_neg hc] at h
            simp at h
  | t, k :: p :: ps, t', hd, h => by
      cases t with
      | str s => simp [delPath] at h
      | flag b => simp [delPath] at h
      | node m =>
          rw [delPath] at h
          cases e : assocLookup m k with
          | none => rw [e] at h; simp at h
          | some c =>
              rw [e] at h
              obtain ⟨c', hc', he⟩ := Option.map_eq_some'.1 h
              subst he
              rw [dictLike_node] at hd
              intro R hR
              cases R with
              | nil => rfl
              | cons r R' =>
                  rw [lookupPath] at hR ⊢
                  by_cases hr : r = k
                  · subst hr
                    rw [assocLookup_assocSet_self] at hR
                    rw [e]
                    exact lookupPath_delPath_isSome c (p :: ps) c'
                      (dictLike_of_mem hd (mem_of_assocLookup e)) hc' R' hR
                  · rw [assocLookup_assocSet_ne m k r c'
                      (fun hc2 => hr hc2)] at hR
                    exact hR

theorem delPath_node : ∀ (m : List (String × SNode)) (P : List String)
    (t' : SNode), delPath (SNode.node m) P = some t' →
      ∃ m', t' = SNode.node m'
  | _, [], _, h => by simp [delPath] at h
  | m, [k], t', h => by
      rw [delPath] at h
      by_cases hc : containsKey m k = true
      · rw [if_pos hc] at h
        injection h with h
        exact ⟨_, h.symm⟩
      · rw [if_neg hc] at h
        simp at h
  | m, k :: p :: ps, t', h => by
      rw [delPath] at h
      cases e : assocLookup m k with
      | none => rw [e] at h; simp at h
      | some c =>
          rw [e] at h
          obtain ⟨c', _, he⟩ := Option.map_eq_some'.1 h
          exact ⟨_, he.symm⟩

theorem delViaPath_inv (store : List (String × SNode))
    (maps : List (String × String)) (P : List String)
    (s' : StormpathSettings) (h : delViaPath ⟨store, maps⟩ P = some s') :
    s'.mappings = maps ∧
      delPath (SNode.node store) P = some (SNode.node s'.store) := by
  rw [delViaPath] at h
  cases e : delPath (SNode.node store) P with
  | none => rw [e] at h; simp at h
  | some t' =>
      rw [e] at h
      obtain ⟨m', rfl⟩ := delPath_node store P t' e
      simp only [Option.some_bind] at h
      injection h with h
      subst h
      exact ⟨rfl, rfl⟩

/-- **Claim C5 (amended).**  In a store with duplicate-free, underscore-free
keys in which no two paths share an alias, deleting a nested path `P`
removes the whole subtree rooted at `P`: every path-mode read of `P` or of a
descendant of `P` now fails, and — provided the alias table has no entry for
it — so does every alias read of the flattened alias of `P` or of any of its
previously-existing descendants, with a not-found error rather than a stale
value.  The unamended claim, quantified over all stores, is refuted by
`delete_cascade_cex`. -/
theorem delete_cascade (store : List (String × SNode))
    (maps : List (String × String)) (P R : List String)
    (s' : StormpathSettings)
    (hd : dictLike (SNode.node store) = true)
    (hu : underFree (SNode.node store) = true)
    (ha : aliasSep (SNode.node store))
    (hm : mapLookup maps (aliasOf (P ++ R)) = none)
    (hP : P ≠ [])
    (hl : (lookupPath (SNode.node store) (P ++ R)).isSome = true)
    (hdel : delViaPath ⟨store, maps⟩ P = some s') :
    s'.mappings = maps ∧
      lookupPath (SNode.node s'.store) (P ++ R) = none ∧
      getItem s' (aliasOf (P ++ R)) = none := by
  obtain ⟨hmaps, hdp⟩ := delViaPath_inv store maps P s' hdel
  have hPR : P ++ R ≠ [] := by
    cases P with
    | nil => exact absurd rfl hP
    | cons p P' => simp
  obtain ⟨hd', hu'⟩ := delPath_preserves (SNode.node store) P _ hd hu hdp
  have hcas := lookupPath_delPath_cascade (SNode.node store) P _ hd hdp R
  refine ⟨hmaps, hcas, ?_⟩
  have hres : resolveKey s' (aliasOf (P ++ R)) = none := by
    rw [resolveKey]
    rw [underFree_node] at hu'
    show (if containsKey s'.store (aliasOf (P ++ R)) = true then _ else _) = _
    rw [containsKey_aliasOf s'.store (P ++ R) hu' hPR, if_neg (by simp)]
    show decomposeKey s'.store
      ((mapLookup s'.mappings (aliasOf (P ++ R))).getD (aliasOf (P ++ R))) =
        none
    rw [hmaps, hm]
    show decomposeKey s'.store (aliasOf (P ++ R)) = none
    rw [decomposeKey_aliasOf, resolveTokens]
    cases hr : resolveAux (pathToks (P ++ R)).length (SNode.node s'.store)
        (pathToks (P ++ R)) with
    | none => rfl
    | some R0 =>
        exfalso
        obtain ⟨hne0, htok0, hl0⟩ := resolveAux_sound _ _ _ _ hr hd'
          (fun _ ht => pathToks_flat ht)
        have hl0' := lookupPath_delPath_isSome (SNode.node store) P _ hd hdp
          R0 hl0
        have h0mem := mem_pathsOf_of_lookup R0 (SNode.node store) hne0 hl0'
        have hPRmem := mem_pathsOf_of_lookup (P ++ R) (SNode.node store)
          hPR hl
        have hEq : R0 = P ++ R :=
          List.inj_on_of_nodup_map ha h0mem hPRmem htok0
        rw [hEq, hcas] at hl0
        simp at hl0
  rw [getItem, hres]
  rfl

/-- **Claim C5, counterexample to the unamended statement.**  In the store
`{web: {register: "E"}, webRegister: "F"}`, deleting the path `web.register`
leaves a store in which reading the deleted path's flattened alias
`STORMPATH_WEB_REGISTER` still succeeds — it returns the sibling value
`"F"` instead of failing with a not-found error. -/
theorem delete_cascade_cex :
    delViaPath ⟨ambStore2, []⟩ ["web", "register"] =
      some ⟨[("web", SNode.node []), ("webRegister", SNode.str "F")], []⟩
    ∧ getItem ⟨[("web", SNode.node []), ("webRegister", SNode.str "F")], []⟩
        (aliasOf ["web", "register"]) = some (SNode.str "F") :=
  ⟨by decide, by decide⟩

/-- Witness for C5: deleting `web.register` from the default store makes the
alias read `STORMPATH_WEB_REGISTER_ENABLED` fail with not-found (matching
`test_del`). -/
theorem delete_cascade_witness :
    dictLike (SNode.node defaultStore) = true ∧
    underFree (SNode.node defaultStore) = true ∧
    aliasSep (SNode.node defaultStore) ∧
    mapLookup defaultMappings (aliasOf ["web", "register", "enabled"]) =
      none ∧
    (lookupPath (SNode.node defaultStore)
      ["web", "register", "enabled"]).isSome = true ∧
    (∃ s', delViaPath defaultSettings ["web", "register"] = some s' ∧
      s'.mappings = defaultMappings ∧
      lookupPath (SNode.node s'.store) ["web", "register", "enabled"] =
        none ∧
      getItem s' (aliasOf ["web", "register", "enabled"]) = none) := by
  refine ⟨by decide, by decide, by decide, by decide, by decide, ?_⟩
  cases hdel : delViaPath defaultSettings ["web", "register"] with
  | none => exact absurd hdel (by decide)
  | some s' =>
      have h := delete_cascade defaultStore defaultMappings
        ["web", "register"] ["enabled"] s' (by decide) (by decide)
        (by decide) (by decide) (by decide) (by decide) hdel
      exact ⟨s', rfl, h.1, h.2.1, h.2.2⟩

/-! ## The validator, the bridge and the routes (claims C7 to C10) -/

/-- **Claim C7.**  On a configuration in which neither a key-id/secret pair
nor a credentials-file path is present, or in which no target application is
configured, `check_settings` raises a configuration error; given a valid
key-file path and application name (all other options at their benign
defaults) it passes without error. -/
theorem check_settings_spec (c : AppConfig)
    (h : ((optPresent c.apiKeyId = false ∨ optPresent c.apiKeySecret = false)
          ∧ optPresent c.apiKeyFile = false)
        ∨ optPresent c.application = false) :
    (∃ msg, check_settings c = Except.error msg)
    ∧ check_settings keyFileConfig = Except.ok ()
    ∧ check_settings emptyConfig =
        Except.error "You must define your Stormpath credentials." := by
  refine ⟨?_, rfl, rfl⟩
  rw [check_settings]
  by_cases h1 : ((!optPresent c.apiKeyId || !optPresent c.apiKeySecret)
      && !optPresent c.apiKeyFile) = true
  · rw [if_pos h1]
    exact ⟨_, rfl⟩
  · rw [if_neg h1]
    have h2 : optPresent c.application = false := by
      rcases h with ⟨hcred, hfile⟩ | happ
      · exfalso
        apply h1
        rw [Bool.and_eq_true, Bool.not_eq_true', hfile]
        refine ⟨?_, rfl⟩
        rcases hcred with hid | hsec
        · rw [Bool.or_eq_true, Bool.not_eq_true', hid]
          exact Or.inl rfl
        · rw [Bool.or_eq_true, Bool.not_eq_true', hsec]
          exact Or.inr rfl
      · exact happ
    rw [if_pos (by rw [Bool.not_eq_true', h2])]
    exact ⟨_, rfl⟩

/-- Witness for C7 at the credential-free, application-free configuration. -/
theorem check_settings_witness :
    (((optPresent emptyConfig.apiKeyId = false ∨
        optPresent emptyConfig.apiKeySecret = false)
      ∧ optPresent emptyConfig.apiKeyFile = false)
      ∨ optPresent emptyConfig.application = false) ∧
    ((∃ msg, check_settings emptyConfig = Except.error msg)
      ∧ check_settings keyFileConfig = Except.ok ()
      ∧ check_settings emptyConfig =
          Except.error "You must define your Stormpath credentials.") :=
  ⟨Or.inl ⟨Or.inl (by decide), by decide⟩,
    check_settings_spec emptyConfig (Or.inl ⟨Or.inl (by decide), by decide⟩)⟩

/-- **Claim C8, counterexample.**  The claim states that the Identity Bridge
propagates directory-service errors unchanged in all three operations and
never converts one into a normal return value; but `load_user` catches
`StormpathError` and returns the normal value `None`. -/
theorem bridge_error_cex :
    load_user (Except.error "directory service failure") = none := rfl

/-- **Claim C8 (amended).**  Directory-service errors raised during the
bridge's create-account (`User.create`) and authenticate-by-login
(`User.from_login`) operations propagate unchanged to the caller, and
successful results are adapted; the load-account-by-handle operation
(`load_user`), however, catches the directory-service error and converts it
into the not-found result `none`. -/
theorem bridge_error_propagation :
    (∀ e : StormpathError, User.create (Except.error e) = Except.error e)
    ∧ (∀ e : StormpathError,
        User.from_login (Except.error e) = Except.error e)
    ∧ (∀ a : Account, User.create (Except.ok a) = Except.ok (adaptUser a))
    ∧ (∀ a : Account,
        User.from_login (Except.ok a) = Except.ok (adaptUser a))
    ∧ (∀ e : StormpathError, load_user (Except.error e) = none)
    ∧ (∀ a : Account, load_user (Except.ok a) = some (adaptUser a)) :=
  ⟨fun _ => rfl, fun _ => rfl, fun _ => rfl, fun _ => rfl, fun _ => rfl,
    fun _ => rfl⟩

/-- **Claim C9.**  For every account, regardless of its state (in particular
its status, so even when `is_active` is false), the adapted `User` reports
`is_authenticated = True` and `is_anonymous = False`. -/
theorem user_always_authenticated :
    ∀ a : Account, (adaptUser a).is_authenticated = true
      ∧ (adaptUser a).is_anonymous = false
      ∧ ((adaptUser a).is_active = true ↔ a.status = "ENABLED") := by
  intro a
  refine ⟨rfl, rfl, ?_⟩
  rw [User.is_active]
  exact beq_iff_eq

/-- **Claim C10.**  The change-password route (endpoint
`stormpath.forgot_change` at `web.changePassword.uri`) is registered if and
only if `web.forgotPassword.enabled` is true, and the `changePassword`
feature's own enabled flag is never consulted: flipping it leaves the
registered routes unchanged. -/
theorem change_password_route (w : WebConf) :
    ((w.changePassword.uri, "stormpath.forgot_change") ∈ init_routes w
      ↔ w.forgotPassword.enabled = true)
    ∧ (∀ b : Bool,
        init_routes { w with changePassword := ⟨b, w.changePassword.uri⟩ } =
          init_routes w) := by
  constructor
  · obtain ⟨⟨r, ru⟩, ⟨l, lu⟩, ⟨f, fu⟩, ⟨cp, cu⟩, ⟨lo, lou⟩⟩ := w
    cases r <;> cases l <;> cases f <;> cases lo <;>
      simp [init_routes]
  · intro b
    rfl

/-- Witness for C10 on a configuration with the forgot-password feature
enabled and the change-password feature's own flag disabled. -/
theorem change_password_route_witness :
    ((("/change" : String), ("stormpath.forgot_change" : String)) ∈
        init_routes ⟨⟨true, "/register"⟩, ⟨true, "/login"⟩, ⟨true, "/forgot"⟩,
          ⟨false, "/change"⟩, ⟨true, "/logout"⟩⟩
      ↔ (true : Bool) = true) ∧
    (∀ b : Bool,
      init_routes ⟨⟨true, "/register"⟩, ⟨true, "/login"⟩, ⟨true, "/forgot"⟩,
          ⟨b, "/change"⟩, ⟨true, "/logout"⟩⟩ =
        init_routes ⟨⟨true, "/register"⟩, ⟨true, "/login"⟩,
          ⟨true, "/forgot"⟩, ⟨false, "/change"⟩, ⟨true, "/logout"⟩⟩) :=
  change_password_route ⟨⟨true, "/register"⟩, ⟨true, "/login"⟩,
    ⟨true, "/forgot"⟩, ⟨false, "/change"⟩, ⟨true, "/logout"⟩⟩

end Stormpath
